import Mathlib

set_option linter.unusedSectionVars false

/-!
Shallow embedding of `microservices_connector/spawn.py` (the affinity worker
pool `DistributedThreads`, the worker loop `AsyncThread.run`, and the
sync-to-async bridge `AsyncToSync`), together with theorems settling the
specification claims about it.

Python queues and deques are modelled as Lean lists with the front at index
zero (oldest element first); `queue.put` and `deque.append` append at the
end, `deque.popleft` drops the head.  Python `raise` is modelled with
`Except String`.  Keys are a type `κ` with decidable equality; tasks are an
opaque type `τ` (a task value stands for the triple `(f, args, kwargs)`).
-/

namespace Spawn

variable {κ τ ρ α β : Type} [DecidableEq κ]

/-- State of a `DistributedThreads` pool (spawn.py lines 60-81): the
configuration fields `max_workers` and `max_watching`, the round-robin
cursor `current_id`, the per-worker FIFO task queues `queue_list` and the
per-worker affinity deques `watching_list`.  The worker threads themselves
and the optional `out_queue` sink carry no routing state and are modelled
separately (`run_loop`). -/
structure PoolState (κ τ : Type) where
  max_workers : Nat
  max_watching : Nat
  current_id : Nat
  queue_list : List (List τ)
  watching_list : List (List κ)
deriving DecidableEq

/-- Fresh pool as built by `DistributedThreads.__init__` / `init_worker`
(spawn.py lines 62-81): cursor 0, `max_workers` empty queues and empty
affinity deques. -/
def init_pool (κ τ : Type) (max_workers max_watching : Nat) : PoolState κ τ :=
  { max_workers := max_workers
    max_watching := max_watching
    current_id := 0
    queue_list := List.replicate max_workers []
    watching_list := List.replicate max_workers [] }

/-- `DistributedThreads.iterate_queue` (spawn.py lines 83-88): append `key`
to the deque when it is neither `None` nor already present, then, when the
deque exceeds `max_watching`, drop its oldest element (`popleft`). -/
def iterate_queue (max_watching : Nat) (watching : List κ) (key : Option κ) :
    List κ :=
  let w :=
    match key with
    | some k => if k ∈ watching then watching else watching ++ [k]
    | none => watching
  if max_watching < w.length then w.tail else w

/-- `DistributedThreads.choose_worker` (spawn.py lines 90-91). -/
def choose_worker (s : PoolState κ τ) : Nat :=
  (s.current_id + 1) % s.max_workers

/-- The scan loop of `submit_id` (spawn.py lines 99-106), kept with its
exact control flow: at the first deque containing `k` the loop checks the
accumulator `worker_id`, raising `ValueError` when it is already set, and
otherwise records the index and `break`s out of the loop. -/
def scanLoop (k : κ) : List (List κ) → Nat → Option Nat → Except String (Option Nat)
  | [], _, acc => .ok acc
  | w :: rest, i, acc =>
    if k ∈ w then
      match acc with
      | some _ => .error "Key belong to more than one worker"
      | none => .ok (some i)
    else scanLoop k rest (i + 1) acc

/-- Index of the first affinity deque containing `k`, if any. -/
def firstOwner (k : κ) : List (List κ) → Option Nat
  | [] => none
  | w :: rest => if k ∈ w then some 0 else (firstOwner k rest).map (· + 1)

/-- Worker selection of `submit_id` (spawn.py lines 97-111): scan the
affinity deques for the key, fall back to `choose_worker` when the key is
absent or `None`. -/
def route (s : PoolState κ τ) (key : Option κ) : Except String Nat :=
  match key with
  | none => .ok (choose_worker s)
  | some k =>
    match scanLoop k s.watching_list 0 none with
    | .error e => .error e
    | .ok (some i) => .ok i
    | .ok none => .ok (choose_worker s)

/-- Total form of `route`'s answer (used in proofs; `route` never raises,
see `routeWorker_spec`). -/
def routeWorker (s : PoolState κ τ) (key : Option κ) : Nat :=
  match key with
  | none => choose_worker s
  | some k => (firstOwner k s.watching_list).getD (choose_worker s)

/-- State change of `submit_id` after a worker has been selected (spawn.py
lines 105-120): set `current_id` to the chosen worker, run `iterate_queue`
on its affinity deque, and append the task to its queue. -/
def applyStep (s : PoolState κ τ) (worker_id : Nat) (key : Option κ) (f : τ) :
    PoolState κ τ :=
  { s with
    current_id := worker_id
    watching_list := s.watching_list.set worker_id
      (iterate_queue s.max_watching (s.watching_list.getD worker_id []) key)
    queue_list := s.queue_list.set worker_id
      ((s.queue_list.getD worker_id []) ++ [f]) }

/-- `DistributedThreads.submit_id` (spawn.py lines 96-120). -/
def submit_id (s : PoolState κ τ) (key : Option κ) (f : τ) :
    Except String (PoolState κ τ) :=
  match route s key with
  | .error e => .error e
  | .ok worker_id => .ok (applyStep s worker_id key f)

/-- `DistributedThreads.submit` (spawn.py lines 93-94): `submit_id` with
key `None`. -/
def submit (s : PoolState κ τ) (f : τ) : Except String (PoolState κ τ) :=
  submit_id s none f

/-- A submission event: an optional affinity key and a task. -/
abbrev Event (κ τ : Type) := Option κ × τ

/-- Run a sequence of `submit_id` calls. -/
def runPool (s : PoolState κ τ) : List (Event κ τ) → Except String (PoolState κ τ)
  | [] => .ok s
  | e :: es =>
    match submit_id s e.1 e.2 with
    | .error err => .error err
    | .ok s' => runPool s' es

/-- Run a sequence of `submit_id` calls, also recording which worker each
submission was routed to. -/
def runPoolA (s : PoolState κ τ) :
    List (Event κ τ) → Except String (PoolState κ τ × List Nat)
  | [] => .ok (s, [])
  | e :: es =>
    match route s e.1 with
    | .error err => .error err
    | .ok wid =>
      match runPoolA (applyStep s wid e.1 e.2) es with
      | .error err => .error err
      | .ok (s', ws) => .ok (s', wid :: ws)

/-- Number of workers whose affinity deque contains `k`. -/
def ownersCount (wl : List (List κ)) (k : κ) : Nat :=
  wl.countP (fun w => decide (k ∈ w))

/-- Decidable residency check: after running `p` from `s`, is `k` in
worker `w`'s affinity deque?  (Vacuously true if the run raised.) -/
def residentAfter (s : PoolState κ τ) (p : List (Event κ τ)) (k : κ) (w : Nat) :
    Bool :=
  match runPool s p with
  | .ok t => decide (k ∈ t.watching_list.getD w [])
  | .error _ => true

/-- Observable outcome of one worker thread's life (`AsyncThread.run`,
spawn.py lines 43-57): the results it forwarded to the output sink, how
many times it signalled `task_done`, and the exception (if any) that
escaped the loop body and terminated the thread. -/
structure WorkerRun (ρ : Type) where
  forwarded : List ρ
  task_done : Nat
  failure : Option String
deriving DecidableEq

/-- `AsyncThread.run` (spawn.py lines 43-57) over a finite queue prefix.
Each queue entry is the outcome of calling `f(*args, **kwargs)`: a result
or a raised exception.  The body runs the task, forwards the result when
an output sink is configured (`has_out`), and signals `task_done`; an
exception is not caught, so it stops the loop with no forwarding and no
`task_done` for that task. -/
def run_loop (has_out : Bool) : List (Except String ρ) → WorkerRun ρ
  | [] => { forwarded := [], task_done := 0, failure := none }
  | t :: rest =>
    match t with
    | .error e => { forwarded := [], task_done := 0, failure := some e }
    | .ok r =>
      let tail_run := run_loop has_out rest
      { forwarded := (if has_out then [r] else []) ++ tail_run.forwarded
        task_done := tail_run.task_done + 1
        failure := tail_run.failure }

/-- Value held by the single-assignment result cell of `AsyncToSync`
(a `concurrent.futures.Future`): exactly one of a success value
(`set_result`) or a failure cause (`set_exception`). -/
inductive CellValue (β : Type) where
  | result (v : β)
  | exception (e : String)
deriving DecidableEq

/-- `Future.result()`: return the stored value or re-raise the stored
exception. -/
def cellResult : CellValue β → Except String β
  | .result v => .ok v
  | .exception e => .error e

/-- `AsyncToSync.main_wrap` (spawn.py lines 195-205): await the wrapped
operation; on an exception store it in the cell (`set_exception`),
otherwise store the value (`set_result`). -/
def main_wrap (awaitable : α → Except String β) (x : α) : CellValue β :=
  match awaitable x with
  | .ok v => .result v
  | .error e => .exception e

/-- Event-loop environment seen by one `AsyncToSync.__call__` invocation:
whether `asyncio.get_event_loop()` succeeds in the calling thread, whether
that loop is running, and whether a home loop (`self.main_event_loop`) is
known and running. -/
structure LoopEnv where
  has_current_loop : Bool
  current_loop_running : Bool
  main_loop_known : Bool
  main_loop_running : Bool
deriving DecidableEq

/-- Side effects a call to `AsyncToSync.__call__` can perform, in order. -/
inductive Effect where
  | created_result_cell
  | made_private_loop
  | scheduled_on_main
  | blocked_on_result
deriving DecidableEq

/-- What one `AsyncToSync.__call__` invocation did: its effect trace, the
final content of the result cell (`none` when no cell was ever created),
and what the synchronous caller gets back (`error` = exception raised). -/
structure CallOutcome (β : Type) where
  effects : List Effect
  cell : Option (CellValue β)
  ret : Except String β

/-- The reentrancy error raised by `AsyncToSync.__call__`. -/
def reentrancy_error : String :=
  "You cannot use AsyncToSync in the same thread as an async event loop - just await the async function directly."

/-- `AsyncToSync.__call__` (spawn.py lines 144-187).  The guard comes
first: with a running event loop in the calling thread it raises before
the result cell is made, before any loop is constructed and before
anything is scheduled.  Otherwise the cell is created and `main_wrap`
runs, either on a freshly constructed private loop (home loop absent or
not running) or scheduled thread-safely onto the running home loop; the
caller then blocks on `call_result.result()`. -/
def asyncToSync_call (env : LoopEnv) (awaitable : α → Except String β)
    (x : α) : CallOutcome β :=
  if env.has_current_loop && env.current_loop_running then
    { effects := [], cell := none, ret := .error reentrancy_error }
  else
    let cv := main_wrap awaitable x
    if !(env.main_loop_known && env.main_loop_running) then
      { effects := [.created_result_cell, .made_private_loop, .blocked_on_result]
        cell := some cv
        ret := cellResult cv }
    else
      { effects := [.created_result_cell, .scheduled_on_main, .blocked_on_result]
        cell := some cv
        ret := cellResult cv }

/-! Basic list helpers. -/

/-- Setting an index to the value it already holds is the identity. -/
theorem set_getD_self (l : List α) (i : Nat) (d : α) (h : i < l.length) :
    l.set i (l.getD i d) = l := by
  induction l generalizing i with
  | nil => simp at h
  | cons x xs ih =>
    cases i with
    | zero => simp
    | succ n =>
      simp only [List.getD_cons_succ, List.set]
      rw [ih n (by simpa using h)]

/-- Membership in `getD` forces the index to be in range. -/
theorem lt_length_of_mem_getD {l : List (List β)} {i : Nat} {k : β}
    (h : k ∈ l.getD i []) : i < l.length := by
  by_contra hge
  rw [List.getD_eq_default _ _ (Nat.le_of_not_lt hge)] at h
  exact absurd h (List.not_mem_nil k)

/-! Properties of `firstOwner`, `scanLoop` and `route`. -/

/-- The scan loop never raises when started with `worker_id = None`: it
stops (`break`) at the first deque containing the key.  Its answer is
`firstOwner`, shifted by the starting index. -/
theorem scanLoop_eq (k : κ) (wl : List (List κ)) (i : Nat) :
    scanLoop k wl i none = .ok ((firstOwner k wl).map (· + i)) := by
  induction wl generalizing i with
  | nil => rfl
  | cons w rest ih =>
    by_cases hk : k ∈ w
    · simp [scanLoop, firstOwner, hk]
    · simp only [scanLoop, firstOwner, if_neg hk, ih (i + 1), Option.map_map]
      cases firstOwner k rest with
      | none => rfl
      | some j => simp [Function.comp, Nat.add_assoc, Nat.add_comm 1 i]

/-- `route` never raises; its answer is `routeWorker`. -/
theorem route_eq (s : PoolState κ τ) (key : Option κ) :
    route s key = .ok (routeWorker s key) := by
  cases key with
  | none => rfl
  | some k =>
    simp only [route, routeWorker, scanLoop_eq k s.watching_list 0]
    cases firstOwner k s.watching_list with
    | none => rfl
    | some i => simp

/-- `submit_id` never raises: it always performs `applyStep` at the worker
computed by `routeWorker`. -/
theorem submit_id_eq (s : PoolState κ τ) (key : Option κ) (f : τ) :
    submit_id s key f = .ok (applyStep s (routeWorker s key) key f) := by
  simp [submit_id, route_eq]

/-- A successful `firstOwner` answer is an in-range index whose deque
contains the key. -/
theorem firstOwner_mem {k : κ} {wl : List (List κ)} {i : Nat}
    (h : firstOwner k wl = some i) : i < wl.length ∧ k ∈ wl.getD i [] := by
  induction wl generalizing i with
  | nil => simp [firstOwner] at h
  | cons w rest ih =>
    by_cases hk : k ∈ w
    · simp [firstOwner, hk] at h
      subst h
      simpa using hk
    · simp only [firstOwner, if_neg hk] at h
      cases hfo : firstOwner k rest with
      | none => rw [hfo] at h; simp at h
      | some j =>
        rw [hfo] at h
        simp at h
        subst h
        obtain ⟨h1, h2⟩ := ih hfo
        exact ⟨by simpa using Nat.succ_lt_succ h1, by simpa using h2⟩

/-- When `firstOwner` finds nothing, the key is in no deque. -/
theorem firstOwner_none {k : κ} {wl : List (List κ)}
    (h : firstOwner k wl = none) : ∀ w ∈ wl, k ∉ w := by
  induction wl with
  | nil => simp
  | cons w rest ih =>
    by_cases hk : k ∈ w
    · simp [firstOwner, hk] at h
    · simp only [firstOwner, if_neg hk] at h
      intro w' hw'
      rcases List.mem_cons.mp hw' with rfl | hw'
      · exact hk
      · exact ih (by cases hfo : firstOwner k rest with
          | none => rfl
          | some j => rw [hfo] at h; simp at h) w' hw'

/-- A deque containing the key witnesses a positive owner count. -/
theorem ownersCount_pos {k : κ} {wl : List (List κ)} {j : Nat}
    (h : k ∈ wl.getD j []) : 1 ≤ ownersCount wl k := by
  induction wl generalizing j with
  | nil => simp at h
  | cons w rest ih =>
    rw [ownersCount, List.countP_cons]
    cases j with
    | zero =>
      simp only [List.getD_cons_zero] at h
      simp [h]
    | succ n =>
      simp only [List.getD_cons_succ] at h
      have := ih h
      rw [ownersCount] at this
      omega

/-- With key exclusivity, the scan's first hit is the unique owner. -/
theorem firstOwner_unique {k : κ} {wl : List (List κ)} {i : Nat}
    (hk : k ∈ wl.getD i []) (huniq : ownersCount wl k ≤ 1) :
    firstOwner k wl = some i := by
  induction wl generalizing i with
  | nil => simp at hk
  | cons w rest ih =>
    cases i with
    | zero =>
      simp only [List.getD_cons_zero] at hk
      simp [firstOwner, hk]
    | succ n =>
      simp only [List.getD_cons_succ] at hk
      have hrest : 1 ≤ ownersCount rest k := ownersCount_pos hk
      rw [ownersCount, List.countP_cons] at huniq
      have hknotw : k ∉ w := by
        intro hkw
        rw [ownersCount] at hrest
        have h1 : (if decide (k ∈ w) = true then 1 else 0) = 1 := by simp [hkw]
        omega
      have hle : ownersCount rest k ≤ 1 := by
        rw [ownersCount] at hrest ⊢
        omega
      simp [firstOwner, hknotw, ih hk hle]

/-! Properties of `iterate_queue`. -/

/-- With key `None` and a deque within capacity, `iterate_queue` is the
identity. -/
theorem iterate_queue_none {M : Nat} {w : List κ} (h : w.length ≤ M) :
    iterate_queue M w none = w := by
  simp only [iterate_queue]
  rw [if_neg (by omega)]

/-- With a key already resident and a deque within capacity,
`iterate_queue` is the identity (no LRU refresh). -/
theorem iterate_queue_mem {M : Nat} {w : List κ} {k : κ} (hk : k ∈ w)
    (h : w.length ≤ M) : iterate_queue M w (some k) = w := by
  simp only [iterate_queue, if_pos hk]
  rw [if_neg (by omega)]

/-- With a fresh key, `iterate_queue` appends it and, on overflow, drops
the oldest element. -/
theorem iterate_queue_new {M : Nat} {w : List κ} {k : κ} (hk : k ∉ w) :
    iterate_queue M w (some k) =
      if M < w.length + 1 then (w ++ [k]).tail else w ++ [k] := by
  simp [iterate_queue, if_neg hk]

/-- `iterate_queue` keeps a within-capacity deque within capacity. -/
theorem iterate_queue_length {M : Nat} {w : List κ} (key : Option κ)
    (h : w.length ≤ M) : (iterate_queue M w key).length ≤ M := by
  cases key with
  | none => rw [iterate_queue_none h]; exact h
  | some k =>
    by_cases hk : k ∈ w
    · rw [iterate_queue_mem hk h]; exact h
    · rw [iterate_queue_new hk]
      split
      · rw [List.length_tail, List.length_append]
        simp
        omega
      · rw [List.length_append]
        simp
        omega

/-- Unfolding of `iterate_queue` at key `None`. -/
theorem iterate_queue_none_eq (M : Nat) (w : List κ) :
    iterate_queue M w none = if M < w.length then w.tail else w := rfl

/-- Unfolding of `iterate_queue` at a present key. -/
theorem iterate_queue_some_eq (M : Nat) (w : List κ) (k : κ) :
    iterate_queue M w (some k) =
      if M < (if k ∈ w then w else w ++ [k]).length
      then (if k ∈ w then w else w ++ [k]).tail
      else if k ∈ w then w else w ++ [k] := rfl

/-- Everything in the output of `iterate_queue` was already in the deque or
is the submitted key. -/
theorem mem_iterate_queue {M : Nat} {w : List κ} {key : Option κ} {x : κ}
    (h : x ∈ iterate_queue M w key) : x ∈ w ∨ key = some x := by
  cases key with
  | none =>
    left
    rw [iterate_queue_none_eq] at h
    split at h
    · exact List.mem_of_mem_tail h
    · exact h
  | some k =>
    by_cases hk : k ∈ w
    · left
      simp only [iterate_queue_some_eq, if_pos hk] at h
      split at h
      · exact List.mem_of_mem_tail h
      · exact h
    · simp only [iterate_queue_some_eq, if_neg hk] at h
      have hx : x ∈ w ++ [k] := by
        split at h
        · exact List.mem_of_mem_tail h
        · exact h
      rcases List.mem_append.mp hx with hx | hx
      · exact Or.inl hx
      · simp at hx
        subst hx
        exact Or.inr rfl

/-! Pool invariants. -/

/-- Structural well-formedness: a positive worker count, queue and
watching lists of that length, and an in-range cursor.  All of these hold
for a freshly constructed pool and are preserved by submissions. -/
def WF (s : PoolState κ τ) : Prop :=
  0 < s.max_workers ∧ s.queue_list.length = s.max_workers ∧
    s.watching_list.length = s.max_workers ∧ s.current_id < s.max_workers

/-- The spec's exclusivity invariant: every key is owned by at most one
worker. -/
def KeyExclusive (s : PoolState κ τ) : Prop :=
  ∀ k : κ, ownersCount s.watching_list k ≤ 1

/-- Every affinity deque is within the configured capacity. -/
def BoundedWatching (s : PoolState κ τ) : Prop :=
  ∀ w ∈ s.watching_list, w.length ≤ s.max_watching

/-- All pool invariants together. -/
def Inv (s : PoolState κ τ) : Prop :=
  WF s ∧ KeyExclusive s ∧ BoundedWatching s

/-- `getD` of a list of bounded deques is bounded. -/
theorem getD_length_le {wl : List (List κ)} {M : Nat}
    (h : ∀ w ∈ wl, w.length ≤ M) (i : Nat) : (wl.getD i []).length ≤ M := by
  by_cases hi : i < wl.length
  · have hg : wl.getD i [] = wl[i] := by
      rw [List.getD_eq_getElem?_getD, List.getElem?_eq_getElem hi]
      rfl
    rw [hg]
    exact h _ (List.getElem_mem hi)
  · rw [List.getD_eq_default _ _ (Nat.le_of_not_lt hi)]
    simp

/-- Setting an index to the value it holds is the identity, including out
of range. -/
theorem set_getD_self' (l : List α) (i : Nat) (d : α) :
    l.set i (l.getD i d) = l := by
  by_cases h : i < l.length
  · exact set_getD_self l i d h
  · exact List.set_eq_of_length_le (Nat.le_of_not_lt h)

/-- The worker selected for a submission is always in range. -/
theorem routeWorker_lt (s : PoolState κ τ) (key : Option κ) (hwf : WF s) :
    routeWorker s key < s.max_workers := by
  obtain ⟨hN, _, hw, _⟩ := hwf
  have hchoose : choose_worker s < s.max_workers := Nat.mod_lt _ hN
  cases key with
  | none => exact hchoose
  | some k =>
    simp only [routeWorker]
    cases hfo : firstOwner k s.watching_list with
    | none => exact hchoose
    | some i =>
      have := (firstOwner_mem hfo).1
      simp only [Option.getD_some]
      omega

/-- In-range `getD` is `getElem`. -/
theorem getD_eq_getElem' {l : List α} {i : Nat} (h : i < l.length) (d : α) :
    l.getD i d = l[i] := by
  rw [List.getD_eq_getElem?_getD, List.getElem?_eq_getElem h]
  rfl

/-- `List.countP` after `set`, phrased with `getD`. -/
theorem countP_set_getD (p : α → Bool) (l : List α) (i : Nat) (a d : α)
    (h : i < l.length) :
    (l.set i a).countP p =
      l.countP p - (if p (l.getD i d) = true then 1 else 0) +
        (if p a = true then 1 else 0) := by
  rw [List.countP_set _ _ _ _ h, getD_eq_getElem' h d]

/-- `routeWorker` on a key hit returns the owner found by the scan. -/
theorem routeWorker_some_hit {s : PoolState κ τ} {k : κ} {i : Nat}
    (hfo : firstOwner k s.watching_list = some i) :
    routeWorker s (some k) = i := by
  simp [routeWorker, hfo]

/-- `routeWorker` on a key miss falls back to the round-robin choice. -/
theorem routeWorker_some_miss {s : PoolState κ τ} {k : κ}
    (hfo : firstOwner k s.watching_list = none) :
    routeWorker s (some k) = choose_worker s := by
  simp [routeWorker, hfo]

/-- A keyed hit leaves every affinity deque unchanged (the key is already
present, so nothing is appended, and a within-capacity deque is not
popped). -/
theorem applyStep_watching_hit {s : PoolState κ τ} {k : κ} {i : Nat} (f : τ)
    (hbdd : BoundedWatching s) (hfo : firstOwner k s.watching_list = some i) :
    (applyStep s i (some k) f).watching_list = s.watching_list := by
  have hk := (firstOwner_mem hfo).2
  simp only [applyStep]
  rw [iterate_queue_mem hk (getD_length_le hbdd i), set_getD_self']

/-- An unkeyed submission leaves every affinity deque unchanged, provided
all deques are within capacity. -/
theorem applyStep_watching_none (s : PoolState κ τ) (wid : Nat) (f : τ)
    (hbdd : BoundedWatching s) :
    (applyStep s wid none f).watching_list = s.watching_list := by
  simp only [applyStep]
  rw [iterate_queue_none (getD_length_le hbdd wid), set_getD_self']

/-- One submission preserves key exclusivity. -/
theorem applyStep_keyExclusive (s : PoolState κ τ) (key : Option κ) (f : τ)
    (hwf : WF s) (hexcl : KeyExclusive s) (hbdd : BoundedWatching s) :
    KeyExclusive (applyStep s (routeWorker s key) key f) := by
  cases key with
  | none =>
    intro k'
    show ownersCount (applyStep s (routeWorker s none) none f).watching_list k' ≤ 1
    rw [applyStep_watching_none s _ f hbdd]
    exact hexcl k'
  | some k =>
    cases hfo : firstOwner k s.watching_list with
    | some i =>
      intro k'
      show ownersCount (applyStep s (routeWorker s (some k)) (some k) f).watching_list k' ≤ 1
      rw [routeWorker_some_hit hfo, applyStep_watching_hit f hbdd hfo]
      exact hexcl k'
    | none =>
      intro k'
      rw [routeWorker_some_miss hfo]
      have hwid : choose_worker s < s.watching_list.length := by
        obtain ⟨hN, _, hwl, _⟩ := hwf
        rw [hwl]
        exact Nat.mod_lt _ hN
      show ownersCount
        (s.watching_list.set (choose_worker s)
          (iterate_queue s.max_watching
            (s.watching_list.getD (choose_worker s) []) (some k))) k' ≤ 1
      rw [ownersCount, countP_set_getD _ _ _ _ [] hwid]
      have hcount : s.watching_list.countP (fun w => decide (k' ∈ w)) ≤ 1 :=
        hexcl k'
      by_cases hka : k' ∈ iterate_queue s.max_watching
          (s.watching_list.getD (choose_worker s) []) (some k)
      · rcases mem_iterate_queue hka with hkw | hkk
        · have e1 : (if decide
              (k' ∈ s.watching_list.getD (choose_worker s) []) = true
              then 1 else 0) = 1 := by
            rw [if_pos (decide_eq_true hkw)]
          have e2 : (if decide (k' ∈ iterate_queue s.max_watching
              (s.watching_list.getD (choose_worker s) []) (some k)) = true
              then 1 else 0) = 1 := by
            rw [if_pos (decide_eq_true hka)]
          have hge : 1 ≤ s.watching_list.countP (fun w => decide (k' ∈ w)) :=
            ownersCount_pos hkw
          rw [e1, e2]
          omega
        · injection hkk with hkk
          have hzero : s.watching_list.countP (fun w => decide (k' ∈ w)) = 0 :=
            List.countP_eq_zero.mpr (fun w hw => by
              simp only [decide_eq_true_eq]
              rw [← hkk]
              exact firstOwner_none hfo w hw)
          have b2 : (if decide (k' ∈ iterate_queue s.max_watching
              (s.watching_list.getD (choose_worker s) []) (some k)) = true
              then 1 else 0) ≤ 1 := by
            split <;> omega
          rw [hzero]
          omega
      · have e2 : (if decide (k' ∈ iterate_queue s.max_watching
            (s.watching_list.getD (choose_worker s) []) (some k)) = true
            then 1 else 0) = 0 := by
          rw [if_neg (by simpa using hka)]
        rw [e2]
        omega

/-- One submission keeps every affinity deque within capacity. -/
theorem applyStep_bounded (s : PoolState κ τ) (key : Option κ) (f : τ)
    (hbdd : BoundedWatching s) :
    BoundedWatching (applyStep s (routeWorker s key) key f) := by
  intro w' hw'
  rcases List.mem_or_eq_of_mem_set hw' with hw' | rfl
  · exact hbdd w' hw'
  · exact iterate_queue_length key (getD_length_le hbdd _)

/-- One submission preserves all the pool invariants. -/
theorem applyStep_inv (s : PoolState κ τ) (key : Option κ) (f : τ)
    (hinv : Inv s) : Inv (applyStep s (routeWorker s key) key f) := by
  obtain ⟨hwf, hexcl, hbdd⟩ := hinv
  have hwid := routeWorker_lt s key hwf
  obtain ⟨hN, hq, hw, hc⟩ := hwf
  refine ⟨⟨hN, ?_, ?_, hwid⟩, applyStep_keyExclusive s key f ⟨hN, hq, hw, hc⟩ hexcl hbdd,
    applyStep_bounded s key f hbdd⟩
  · simpa [applyStep] using hq
  · simpa [applyStep] using hw

/-- A fresh pool satisfies all invariants. -/
theorem init_pool_inv (N M : Nat) (hN : 0 < N) : Inv (init_pool κ τ N M) := by
  refine ⟨⟨hN, by simp [init_pool], by simp [init_pool], hN⟩, ?_, ?_⟩
  · intro k
    rw [show (init_pool κ τ N M).watching_list = List.replicate N [] from rfl,
      ownersCount]
    rw [List.countP_eq_zero.mpr (fun w hw => by
      rw [List.eq_of_mem_replicate hw]
      simp)]
    omega
  · intro w hw
    rw [List.eq_of_mem_replicate hw]
    simp

/-- Unfolding `runPool` one submission at a time (the step never raises). -/
theorem runPool_cons (s : PoolState κ τ) (e : Event κ τ) (es : List (Event κ τ)) :
    runPool s (e :: es) = runPool (applyStep s (routeWorker s e.1) e.1 e.2) es := by
  simp [runPool, submit_id_eq]

/-- Running any event sequence preserves the invariants and the
configuration fields. -/
theorem runPool_inv (es : List (Event κ τ)) :
    ∀ s : PoolState κ τ, Inv s → ∀ s', runPool s es = .ok s' →
      Inv s' ∧ s'.max_workers = s.max_workers ∧
        s'.max_watching = s.max_watching := by
  induction es with
  | nil =>
    intro s hinv s' h
    simp only [runPool] at h
    injection h with h
    subst h
    exact ⟨hinv, rfl, rfl⟩
  | cons e es ih =>
    intro s hinv s' h
    rw [runPool_cons] at h
    have hstep := applyStep_inv s e.1 e.2 hinv
    obtain ⟨h1, h2, h3⟩ := ih _ hstep s' h
    exact ⟨h1, h2, h3⟩

/-! Claim theorems. -/

/-- C3: starting from a freshly constructed pool, after any sequence of
`submit` / `submit_id` calls, every key is present in at most one worker's
affinity set and every affinity set holds at most `max_watching` keys. -/
theorem pool_reachable_invariant (N M : Nat) (hN : 0 < N)
    (es : List (Event κ τ)) (s' : PoolState κ τ)
    (h : runPool (init_pool κ τ N M) es = .ok s') :
    (∀ k : κ, ownersCount s'.watching_list k ≤ 1) ∧
      ∀ w ∈ s'.watching_list, w.length ≤ M := by
  obtain ⟨hinv, _, hmm⟩ :=
    runPool_inv es (init_pool κ τ N M) (init_pool_inv N M hN) s' h
  refine ⟨hinv.2.1, fun w hw => ?_⟩
  have hb := hinv.2.2 w hw
  rwa [hmm] at hb

/-- Witness for C3: a concrete four-submission run on a two-worker pool of
capacity one ends with affinity sets `[[5], [6]]`. -/
theorem pool_reachable_invariant_witness :
    (∀ k : Nat, ownersCount ([[5], [6]] : List (List Nat)) k ≤ 1) ∧
      ∀ w ∈ ([[5], [6]] : List (List Nat)), w.length ≤ 1 :=
  pool_reachable_invariant 2 1 (by decide)
    [(some 5, 10), (none, 11), (some 6, 12), (some 5, 13)]
    ⟨2, 1, 0, [[11, 13], [10, 12]], [[5], [6]]⟩ (by rfl)

/-- C1 (code bug): `submit_id` never raises the multi-owner `ValueError`.
The scan loop `break`s at the first worker owning the key, so the check
`worker_id is not None` that guards the raise is unreachable: every call
returns normally.  On a corrupted pool whose two workers both own key 7,
the call silently routes to worker 0 instead of failing. -/
theorem submit_id_never_raises :
    (∀ (s : PoolState κ τ) (key : Option κ) (f : τ),
        ∃ s', submit_id s key f = .ok s') ∧
      submit_id (⟨2, 100, 0, [[], []], [[7], [7]]⟩ : PoolState Nat Nat)
          (some 7) 99 =
        .ok ⟨2, 100, 0, [[99], []], [[7], [7]]⟩ :=
  ⟨fun s key f => ⟨_, submit_id_eq s key f⟩, rfl⟩

/-- C2 counterexample: submitting with key 5, resident only in worker 0's
affinity set, from a pool whose cursor is 1, moves the cursor to 0: the
round-robin cursor is not left unchanged by a keyed hit. -/
theorem submit_keyed_hit_changes_cursor :
    (submit_id (⟨2, 100, 1, [[], []], [[5], []]⟩ : PoolState Nat Nat)
        (some 5) 9).toOption.map PoolState.current_id ≠
      some (⟨2, 100, 1, [[], []], [[5], []]⟩ :
        PoolState Nat Nat).current_id := by
  decide

/-- C2 (amended): a key resident in exactly one worker's affinity set
routes the task to that worker, whose queue alone grows by the task; the
affinity sets and the configuration fields are unchanged, but the
round-robin cursor is set to that worker's index (line 105 of spawn.py)
rather than left unchanged. -/
theorem submit_keyed_hit_routes (s : PoolState κ τ) (k : κ) (f : τ) (i : Nat)
    (hk : k ∈ s.watching_list.getD i [])
    (huniq : ownersCount s.watching_list k ≤ 1)
    (hcap : (s.watching_list.getD i []).length ≤ s.max_watching) :
    submit_id s (some k) f =
      .ok { s with
        current_id := i
        queue_list := s.queue_list.set i ((s.queue_list.getD i []) ++ [f]) } := by
  have hfo := firstOwner_unique hk huniq
  rw [submit_id_eq, routeWorker_some_hit hfo]
  simp only [applyStep]
  rw [iterate_queue_mem hk hcap, set_getD_self']

/-- Witness for C2's amended theorem at a concrete pool. -/
theorem submit_keyed_hit_routes_witness :
    submit_id (⟨2, 100, 1, [[], []], [[5], []]⟩ : PoolState Nat Nat)
        (some 5) 9 =
      .ok ⟨2, 100, 0, [[9], []], [[5], []]⟩ :=
  submit_keyed_hit_routes (⟨2, 100, 1, [[], []], [[5], []]⟩ : PoolState Nat Nat)
    5 9 0 (by decide) (by decide) (by decide)

/-- C10 counterexample: on a pool state whose routed worker's affinity
deque is over capacity (reachable only by outside interference), an
unkeyed `submit` pops that deque's oldest key: the affinity sets are not
always left unchanged. -/
theorem submit_unkeyed_pops_over_capacity :
    (submit (⟨2, 1, 1, [[], []], [[3, 4], []]⟩ : PoolState Nat Nat)
        0).toOption.map PoolState.watching_list ≠
      some (⟨2, 1, 1, [[], []], [[3, 4], []]⟩ :
        PoolState Nat Nat).watching_list := by
  decide

/-- `routeWorker` with no key is the round-robin choice. -/
theorem routeWorker_none (s : PoolState κ τ) :
    routeWorker s none = choose_worker s := rfl

/-- C10 (amended): on every pool state whose affinity deques are within
capacity — which includes every reachable state — an unkeyed `submit`
inserts nothing into any affinity set: the sets are unchanged, the cursor
advances to `(current_id + 1) % max_workers`, and that worker's queue
alone grows by the task. -/
theorem submit_unkeyed_frame (s : PoolState κ τ) (f : τ)
    (hbdd : ∀ w ∈ s.watching_list, w.length ≤ s.max_watching) :
    submit s f =
      .ok { s with
        current_id := choose_worker s
        queue_list := s.queue_list.set (choose_worker s)
          ((s.queue_list.getD (choose_worker s) []) ++ [f]) } := by
  rw [submit, submit_id_eq, routeWorker_none]
  simp only [applyStep]
  rw [iterate_queue_none (getD_length_le hbdd _), set_getD_self']

/-- Witness for C10's amended theorem at a concrete pool. -/
theorem submit_unkeyed_frame_witness :
    submit (⟨2, 5, 0, [[], []], [[1], [2]]⟩ : PoolState Nat Nat) 7 =
      .ok ⟨2, 5, 1, [[], [7]], [[1], [2]]⟩ :=
  submit_unkeyed_frame (⟨2, 5, 0, [[], []], [[1], [2]]⟩ : PoolState Nat Nat) 7
    (by decide)

/-- Folding `iterate_queue` over distinct keys that fit within capacity
just appends them all: the deque ends as the key list itself. -/
theorem fill_below_capacity (M : Nat) (keys : List κ) (hnd : keys.Nodup)
    (hlen : keys.length ≤ M) :
    keys.foldl (fun w k => iterate_queue M w (some k)) [] = keys := by
  induction keys using List.reverseRecOn with
  | nil => rfl
  | append_singleton ys k ih =>
    rw [List.foldl_append, List.foldl_cons, List.foldl_nil]
    have hysnd : ys.Nodup := hnd.of_append_left
    have hknot : k ∉ ys := by
      intro hk
      have := List.disjoint_of_nodup_append hnd hk
      simp at this
    have hyslen : ys.length ≤ M - 1 := by
      rw [List.length_append] at hlen
      simp at hlen
      omega
    rw [ih hysnd (by omega)]
    rw [iterate_queue_new hknot]
    rw [if_neg (by rw [List.length_append] at hlen; simpa using hlen)]

/-- C4: the affinity-set eviction policy is FIFO, not LRU.  First, folding
`iterate_queue` (capacity `M`) over `M + 1` distinct keys starting from an
empty deque evicts exactly the first-inserted key, leaving the remaining
`M` keys with the new key appended.  Second, re-submitting a resident key
leaves the deque identical (no position refresh).  Third, whenever an
element disappears from the deque it was the deque's head, i.e. its oldest
key: no other key is ever evicted. -/
theorem eviction_policy_fifo (M : Nat) :
    (∀ keys : List κ, keys.length = M + 1 → keys.Nodup →
        keys.foldl (fun w k => iterate_queue M w (some k)) [] = keys.tail) ∧
      (∀ (w : List κ) (k : κ), k ∈ w → w.length ≤ M →
        iterate_queue M w (some k) = w) ∧
      ∀ (w : List κ) (key : Option κ) (x : κ), w.length ≤ M → x ∈ w →
        x ∉ iterate_queue M w key → w.head? = some x := by
  refine ⟨?_, fun w k hk hcap => iterate_queue_mem hk hcap, ?_⟩
  · intro keys hlen hnd
    rcases keys.eq_nil_or_concat with rfl | ⟨ys, k, rfl⟩
    · simp at hlen
    · rw [List.concat_eq_append] at *
      rw [List.foldl_append, List.foldl_cons, List.foldl_nil]
      have hysnd : ys.Nodup := hnd.of_append_left
      have hknot : k ∉ ys := by
        intro hk
        have := List.disjoint_of_nodup_append hnd hk
        simp at this
      have hyslen : ys.length = M := by
        rw [List.length_append] at hlen
        simp at hlen
        omega
      rw [fill_below_capacity M ys hysnd (by omega)]
      rw [iterate_queue_new hknot]
      rw [if_pos (by omega)]
  · intro w key x hcap hx hnot
    cases key with
    | none =>
      rw [iterate_queue_none hcap] at hnot
      exact absurd hx hnot
    | some k =>
      by_cases hk : k ∈ w
      · rw [iterate_queue_mem hk hcap] at hnot
        exact absurd hx hnot
      · rw [iterate_queue_new hk] at hnot
        by_cases hM : M < w.length + 1
        · rw [if_pos hM] at hnot
          cases w with
          | nil => exact absurd hx (List.not_mem_nil x)
          | cons y t =>
            rw [List.cons_append, List.tail_cons] at hnot
            have hxt : x ∉ t := fun hxt =>
              hnot (List.mem_append.mpr (Or.inl hxt))
            rcases List.mem_cons.mp hx with rfl | hx
            · rfl
            · exact absurd hx hxt
        · rw [if_neg hM] at hnot
          exact absurd (List.mem_append.mpr (Or.inl hx)) hnot

/-- Witness for C4 at capacity 2: inserting keys 1, 2, 3 evicts exactly
key 1; re-submitting resident key 2 leaves `[1, 2]` unchanged; and the
only key `iterate_queue` ever drops from `[1, 2]` is its head 1. -/
theorem eviction_policy_fifo_witness :
    ([1, 2, 3] : List Nat).foldl
        (fun w k => iterate_queue 2 w (some k)) [] = [2, 3] ∧
      iterate_queue 2 [1, 2] (some 2) = [1, 2] ∧
      ([1, 2] : List Nat).head? = some 1 :=
  ⟨(eviction_policy_fifo 2).1 [1, 2, 3] (by decide) (by decide),
    (eviction_policy_fifo 2).2.1 [1, 2] 2 (by decide) (by decide),
    (eviction_policy_fifo 2).2.2 [1, 2] (some 3) 1 (by decide) (by decide)
      (by decide)⟩

/-- C9: in `AsyncThread.run`, an exception raised by a task's callable is
not caught.  Running the loop over a queue holding some successful tasks,
then a task that raises `e`, then anything else, forwards exactly the
earlier results (when a sink is configured), signals `task_done` exactly
once per completed task, and terminates the thread with `e`: the failing
task is forwarded nowhere, gets no `task_done`, and nothing after it ever
runs. -/
theorem worker_failure_kills_thread (has_out : Bool) (oks : List ρ)
    (e : String) (post : List (Except String ρ)) :
    run_loop has_out (oks.map Except.ok ++ Except.error e :: post) =
      { forwarded := if has_out then oks else []
        task_done := oks.length
        failure := some e } := by
  induction oks with
  | nil => cases has_out <;> rfl
  | cons r rest ih =>
    rw [List.map_cons, List.cons_append]
    show run_loop has_out (Except.ok r :: (rest.map Except.ok ++ Except.error e :: post)) = _
    rw [show ∀ l, run_loop has_out (Except.ok r :: l) =
        { forwarded := (if has_out then [r] else []) ++ (run_loop has_out l).forwarded
          task_done := (run_loop (ρ := ρ) has_out l).task_done + 1
          failure := (run_loop (ρ := ρ) has_out l).failure } from fun l => rfl]
    rw [ih]
    cases has_out <;> simp

/-- C7: calling `AsyncToSync.__call__` from a thread whose event loop is
running fails immediately with the reentrancy error: the returned outcome
raises, no result cell exists, and the effect trace is empty — nothing was
scheduled, no private loop was made, and the call never blocked. -/
theorem reentrancy_guard (env : LoopEnv) (aw : α → Except String β) (x : α)
    (h1 : env.has_current_loop = true) (h2 : env.current_loop_running = true) :
    (asyncToSync_call env aw x).ret = .error reentrancy_error ∧
      (asyncToSync_call env aw x).cell = none ∧
      (asyncToSync_call env aw x).effects = [] := by
  simp [asyncToSync_call, h1, h2]

/-- Witness for C7 at a concrete environment and operation. -/
theorem reentrancy_guard_witness :
    (asyncToSync_call ⟨true, true, false, false⟩
        (fun n : Nat => (.ok n : Except String Nat)) 0).ret =
        .error reentrancy_error ∧
      (asyncToSync_call ⟨true, true, false, false⟩
        (fun n : Nat => (.ok n : Except String Nat)) 0).cell = none ∧
      (asyncToSync_call ⟨true, true, false, false⟩
        (fun n : Nat => (.ok n : Except String Nat)) 0).effects = [] :=
  reentrancy_guard ⟨true, true, false, false⟩ _ 0 rfl rfl

/-- C8: called from ordinary (non-running-event-loop) code, the adapter
returns exactly what awaiting the wrapped operation yields — the value on
success, the same exception re-raised on failure — and the single
result cell holds exactly the matching one of `set_result` /
`set_exception`. -/
theorem bridge_round_trip (env : LoopEnv) (aw : α → Except String β) (x : α)
    (h : env.has_current_loop = false ∨ env.current_loop_running = false) :
    (asyncToSync_call env aw x).ret = aw x ∧
      ((∃ v, aw x = .ok v ∧
          (asyncToSync_call env aw x).cell = some (.result v)) ∨
        (∃ e, aw x = .error e ∧
          (asyncToSync_call env aw x).cell = some (.exception e))) := by
  have hg : (env.has_current_loop && env.current_loop_running) = false := by
    rcases h with h | h <;> simp [h]
  by_cases hm : (env.main_loop_known && env.main_loop_running) = true
  · cases haw : aw x with
    | ok v =>
      refine ⟨?_, Or.inl ⟨v, rfl, ?_⟩⟩ <;>
        simp [asyncToSync_call, hg, hm, main_wrap, haw, cellResult]
    | error e =>
      refine ⟨?_, Or.inr ⟨e, rfl, ?_⟩⟩ <;>
        simp [asyncToSync_call, hg, hm, main_wrap, haw, cellResult]
  · cases haw : aw x with
    | ok v =>
      refine ⟨?_, Or.inl ⟨v, rfl, ?_⟩⟩ <;>
        simp [asyncToSync_call, hg, hm, main_wrap, haw, cellResult]
    | error e =>
      refine ⟨?_, Or.inr ⟨e, rfl, ?_⟩⟩ <;>
        simp [asyncToSync_call, hg, hm, main_wrap, haw, cellResult]

/-- Witness for C8: doubling via the bridge from non-loop code returns the
awaited value `8`, stored as the cell's success value. -/
theorem bridge_round_trip_witness :
    (asyncToSync_call ⟨false, false, false, false⟩
        (fun n : Nat => (.ok (n + n) : Except String Nat)) 4).ret =
        (fun n : Nat => (.ok (n + n) : Except String Nat)) 4 ∧
      ((∃ v, (fun n : Nat => (.ok (n + n) : Except String Nat)) 4 = .ok v ∧
          (asyncToSync_call ⟨false, false, false, false⟩
            (fun n : Nat => (.ok (n + n) : Except String Nat)) 4).cell =
            some (.result v)) ∨
        (∃ e, (fun n : Nat => (.ok (n + n) : Except String Nat)) 4 = .error e ∧
          (asyncToSync_call ⟨false, false, false, false⟩
            (fun n : Nat => (.ok (n + n) : Except String Nat)) 4).cell =
            some (.exception e))) :=
  bridge_round_trip ⟨false, false, false, false⟩ _ 4 (Or.inl rfl)

/-! Queue effect of one submission, and `runPoolA` unfolding. -/

/-- After one submission, worker `j`'s queue gained the task exactly when
`j` is the (in-range) routed worker; other queues are untouched. -/
theorem applyStep_queue_getD (s : PoolState κ τ) (wid : Nat) (key : Option κ)
    (f : τ) (j : Nat) :
    (applyStep s wid key f).queue_list.getD j [] =
      if j = wid ∧ wid < s.queue_list.length
      then s.queue_list.getD j [] ++ [f]
      else s.queue_list.getD j [] := by
  simp only [applyStep]
  rw [List.getD_eq_getElem?_getD, List.getElem?_set]
  by_cases h1 : wid = j
  · subst h1
    by_cases h2 : wid < s.queue_list.length
    · rw [if_pos rfl, if_pos h2, if_pos ⟨rfl, h2⟩]
      rfl
    · rw [if_pos rfl, if_neg h2, if_neg (fun hc => h2 hc.2)]
      rw [List.getD_eq_default _ _ (Nat.le_of_not_lt h2)]
      rfl
  · rw [if_neg h1, if_neg (fun hc => h1 hc.1.symm)]
    rw [← List.getD_eq_getElem?_getD]

/-- One submission does not change the number of queues. -/
theorem applyStep_queue_length (s : PoolState κ τ) (wid : Nat)
    (key : Option κ) (f : τ) :
    (applyStep s wid key f).queue_list.length = s.queue_list.length := by
  simp [applyStep]

/-- One submission sets the cursor to the routed worker. -/
theorem applyStep_current_id (s : PoolState κ τ) (wid : Nat) (key : Option κ)
    (f : τ) : (applyStep s wid key f).current_id = wid := rfl

/-- Unfolding `runPoolA` one submission at a time (routing never raises). -/
theorem runPoolA_cons (s : PoolState κ τ) (e : Event κ τ)
    (es : List (Event κ τ)) :
    runPoolA s (e :: es) =
      match runPoolA (applyStep s (routeWorker s e.1) e.1 e.2) es with
      | .error err => .error err
      | .ok (s', ws) => .ok (s', routeWorker s e.1 :: ws) := by
  simp only [runPoolA, route_eq]

/-! Counting residues over ranges, for round-robin fairness. -/

/-- In a window of `N` consecutive offsets there is exactly one solution
of `(b + j) % N = i`. -/
theorem mod_window_unique {N b i : Nat} (hN : 0 < N) (hi : i < N) (j : Nat)
    (hj : j < N) :
    ((b + j) % N = i) ↔
      j = (if b % N ≤ i then i - b % N else i + N - b % N) := by
  have hb : b % N < N := Nat.mod_lt _ hN
  have h1 : (b + j) % N = (b % N + j) % N := by
    rw [Nat.mod_add_mod]
  rcases Nat.lt_or_ge (b % N + j) N with h | h
  · rw [h1, Nat.mod_eq_of_lt h]
    split <;> omega
  · have h2 : b % N + j - N < N := by omega
    rw [h1, Nat.mod_eq_sub_mod h, Nat.mod_eq_of_lt h2]
    split <;> omega

/-- `List.range N` holds each of its members exactly once. -/
theorem countP_range_eq_single (N j0 : Nat) (h : j0 < N) :
    (List.range N).countP (fun j => j == j0) = 1 := by
  induction N with
  | zero => omega
  | succ n ih =>
    rw [List.range_succ, List.countP_append]
    by_cases hj : j0 < n
    · rw [ih hj]
      have : (n == j0) = false := by simp; omega
      simp [List.countP_cons, this]
    · have hj0 : j0 = n := by omega
      subst hj0
      have hz : (List.range j0).countP (fun j => j == j0) = 0 :=
        List.countP_eq_zero.mpr (fun a ha => by
          simp only [beq_iff_eq]
          have := List.mem_range.mp ha
          simp
          omega)
      simp [hz, List.countP_cons]

/-- Exactly one offset in a window of `N` consecutive submissions routes
to worker `i`. -/
theorem countP_range_block (N b i : Nat) (hN : 0 < N) (hi : i < N) :
    (List.range N).countP (fun j => (b + j) % N == i) = 1 := by
  have hb : b % N < N := Nat.mod_lt _ hN
  set j0 := if b % N ≤ i then i - b % N else i + N - b % N with hj0
  have hj0lt : j0 < N := by rw [hj0]; split <;> omega
  rw [List.countP_congr (fun j hj => ?_), countP_range_eq_single N j0 hj0lt]
  have hjN := List.mem_range.mp hj
  simp only [beq_iff_eq]
  exact mod_window_unique hN hi j hjN

/-- Over `m` full windows, each worker is hit exactly `m` times. -/
theorem countP_range_mul (N b i m : Nat) (hN : 0 < N) (hi : i < N) :
    (List.range (m * N)).countP (fun j => (b + j) % N == i) = m := by
  induction m with
  | zero => simp
  | succ n ih =>
    have : (n + 1) * N = n * N + N := by ring
    rw [this, List.range_add, List.countP_append, ih, List.countP_map]
    have hblock : ((List.range N).countP
        (fun j => (b + (n * N + j)) % N == i)) = 1 := by
      rw [List.countP_congr (fun j hj => ?_), countP_range_block N b i hN hi]
      simp only [Function.comp, beq_iff_eq]
      have harith : b + (n * N + j) = (b + j) + n * N := by omega
      rw [harith, Nat.add_mul_mod_self_right]
    rw [show ((fun j => (b + j) % N == i) ∘ (fun x => n * N + x)) =
        (fun j => (b + (n * N + j)) % N == i) from rfl, hblock]

/-- One submission does not change the worker count. -/
theorem applyStep_max_workers (s : PoolState κ τ) (wid : Nat)
    (key : Option κ) (f : τ) :
    (applyStep s wid key f).max_workers = s.max_workers := rfl

/-- Effect of a run of unkeyed submissions: the recorded assignments are
`(cursor + 1 + j) % N` for the `j`-th submission, the cursor ends at
`(cursor + K) % N`, and each queue grows by the number of offsets routed
to it. -/
theorem unkeyed_run (tasks : List τ) :
    ∀ s : PoolState κ τ, 0 < s.max_workers → s.current_id < s.max_workers →
      s.queue_list.length = s.max_workers →
      ∃ s' : PoolState κ τ,
        runPoolA s (tasks.map (fun t => ((none : Option κ), t))) =
          .ok (s', (List.range tasks.length).map
            (fun j => (s.current_id + 1 + j) % s.max_workers)) ∧
        s'.max_workers = s.max_workers ∧
        s'.current_id = (s.current_id + tasks.length) % s.max_workers ∧
        s'.queue_list.length = s.max_workers ∧
        ∀ i : Nat, (s'.queue_list.getD i []).length =
          (s.queue_list.getD i []).length +
            (List.range tasks.length).countP
              (fun j => (s.current_id + 1 + j) % s.max_workers == i) := by
  induction tasks with
  | nil =>
    intro s hN hc hq
    exact ⟨s, rfl, rfl, by simp [Nat.mod_eq_of_lt hc], hq, fun i => by simp⟩
  | cons t rest ih =>
    intro s hN hc hq
    have hwid : choose_worker s < s.max_workers := Nat.mod_lt _ hN
    obtain ⟨s', hrun, hmw, hcur, hqlen, hcnt⟩ :=
      ih (applyStep s (choose_worker s) none t)
        (by rw [applyStep_max_workers]; exact hN)
        (by rw [applyStep_current_id, applyStep_max_workers]; exact hwid)
        (by rw [applyStep_queue_length, applyStep_max_workers]; exact hq)
    rw [applyStep_max_workers] at hmw
    rw [applyStep_current_id, applyStep_max_workers] at hcur
    rw [applyStep_max_workers] at hqlen
    have hmap : ∀ j : Nat, (choose_worker s + 1 + j) % s.max_workers =
        (s.current_id + 1 + (j + 1)) % s.max_workers := by
      intro j
      show ((s.current_id + 1) % s.max_workers + 1 + j) % s.max_workers = _
      rw [Nat.add_assoc, Nat.mod_add_mod]
      congr 1
      omega
    refine ⟨s', ?_, hmw, ?_, hqlen, ?_⟩
    · rw [List.map_cons, runPoolA_cons, routeWorker_none, hrun]
      show Except.ok (s', choose_worker s :: List.map
          (fun j => ((applyStep s (choose_worker s) none t).current_id + 1 + j) %
            (applyStep s (choose_worker s) none t).max_workers)
          (List.range rest.length)) = _
      have hws : (List.range (rest.length + 1)).map
          (fun j => (s.current_id + 1 + j) % s.max_workers) =
          choose_worker s :: (List.range rest.length).map
            (fun j => ((applyStep s (choose_worker s) none t).current_id + 1 + j) %
              (applyStep s (choose_worker s) none t).max_workers) := by
        rw [List.range_succ_eq_map, List.map_cons, List.map_map]
        congr 1
        exact List.map_congr_left (fun j hj => (hmap j).symm)
      rw [List.length_cons, hws]
    · rw [hcur]
      show ((s.current_id + 1) % s.max_workers + rest.length) % s.max_workers =
        (s.current_id + (t :: rest).length) % s.max_workers
      rw [Nat.mod_add_mod, List.length_cons]
      congr 1
      omega
    · intro i
      have hif : (if i = choose_worker s ∧
            choose_worker s < s.queue_list.length then 1 else 0) =
          (if (choose_worker s == i) = true then 1 else 0) := by
        by_cases h : i = choose_worker s
        · subst h
          rw [if_pos ⟨rfl, by omega⟩, if_pos (by simp)]
        · rw [if_neg (fun hcon => h hcon.1),
            if_neg (by simp only [beq_iff_eq]; exact fun hcon => h hcon.symm)]
      have e3 : (List.range (rest.length + 1)).countP
          (fun j => (s.current_id + 1 + j) % s.max_workers == i) =
          (List.range rest.length).countP
            (fun j => (choose_worker s + 1 + j) % s.max_workers == i) +
            (if (choose_worker s == i) = true then 1 else 0) := by
        rw [List.range_succ_eq_map, List.countP_cons, List.countP_map]
        congr 1
        apply List.countP_congr
        intro j hj
        show ((s.current_id + 1 + (j + 1)) % s.max_workers == i) = true ↔
          ((choose_worker s + 1 + j) % s.max_workers == i) = true
        rw [← hmap j]
      have e2 := hcnt i
      rw [applyStep_current_id, applyStep_max_workers, applyStep_queue_getD] at e2
      rw [List.length_cons, e3, e2]
      by_cases hcond : i = choose_worker s ∧
          choose_worker s < s.queue_list.length
      · rw [if_pos hcond]
        rw [if_pos hcond] at hif
        rw [List.length_append]
        simp only [List.length_cons, List.length_nil]
        omega
      · rw [if_neg hcond]
        rw [if_neg hcond] at hif
        omega

/-- C5: for a pool of `N` workers with an in-range cursor `c`, running `K`
unkeyed submissions with `K = m * N` routes the `j`-th submission to
worker `(c + 1 + j) % N` — cyclically, starting at `(c + 1) % N` — and
every worker's queue receives exactly `m = K / N` tasks. -/
theorem round_robin_fairness (s : PoolState κ τ) (tasks : List τ) (m : Nat)
    (hN : 0 < s.max_workers) (hc : s.current_id < s.max_workers)
    (hq : s.queue_list.length = s.max_workers)
    (hK : tasks.length = m * s.max_workers) :
    ∃ s' : PoolState κ τ,
      runPoolA s (tasks.map (fun t => ((none : Option κ), t))) =
        .ok (s', (List.range tasks.length).map
          (fun j => (s.current_id + 1 + j) % s.max_workers)) ∧
      ∀ i < s.max_workers, (s'.queue_list.getD i []).length =
        (s.queue_list.getD i []).length + m := by
  obtain ⟨s', hrun, _, _, _, hcnt⟩ := unkeyed_run tasks s hN hc hq
  refine ⟨s', hrun, fun i hi => ?_⟩
  rw [hcnt i, hK, countP_range_mul _ _ _ _ hN hi]

/-- Witness for C5: four unkeyed submissions on a fresh two-worker pool
land alternately on workers 1, 0, 1, 0 and give each queue two tasks. -/
theorem round_robin_fairness_witness :
    ∃ s' : PoolState Nat Nat,
      runPoolA (init_pool Nat Nat 2 100)
          ([1, 2, 3, 4].map (fun t => ((none : Option Nat), t))) =
        .ok (s', (List.range ([1, 2, 3, 4] : List Nat).length).map
          (fun j => ((init_pool Nat Nat 2 100).current_id + 1 + j) %
            (init_pool Nat Nat 2 100).max_workers)) ∧
      ∀ i < (init_pool Nat Nat 2 100).max_workers,
        (s'.queue_list.getD i []).length =
          ((init_pool Nat Nat 2 100).queue_list.getD i []).length + 2 :=
  round_robin_fairness (init_pool Nat Nat 2 100) [1, 2, 3, 4] 2
    (by decide) (by decide) (by decide) (by decide)

/-! Key affinity along a run. -/

/-- `residentAfter` over the empty run inspects the starting state. -/
theorem residentAfter_nil (s : PoolState κ τ) (k : κ) (w : Nat) :
    residentAfter s [] k w = decide (k ∈ s.watching_list.getD w []) := rfl

/-- `residentAfter` steps through the first submission. -/
theorem residentAfter_cons (s : PoolState κ τ) (e : Event κ τ)
    (p : List (Event κ τ)) (k : κ) (w : Nat) :
    residentAfter s (e :: p) k w =
      residentAfter (applyStep s (routeWorker s e.1) e.1 e.2) p k w := by
  simp [residentAfter, runPool_cons]

/-- Under the exclusivity invariant, a key resident in worker `w`'s deque
routes to `w`. -/
theorem routeWorker_resident {s : PoolState κ τ} {k : κ} {w : Nat}
    (hexcl : KeyExclusive s) (hk : k ∈ s.watching_list.getD w []) :
    routeWorker s (some k) = w :=
  routeWorker_some_hit (firstOwner_unique hk (hexcl k))

/-- Core induction for key affinity: along any run during which key `k`
stays resident in worker `w`'s affinity deque, every submission keyed `k`
is routed to `w`, and worker `w`'s queue ends as its old content followed
by exactly the tasks of the submissions routed to `w`, in order. -/
theorem runA_key_affinity (es : List (Event κ τ)) :
    ∀ (s : PoolState κ τ) (k : κ) (w : Nat), Inv s →
      (∀ n ≤ es.length, residentAfter s (es.take n) k w = true) →
      ∀ (s' : PoolState κ τ) (ws : List Nat), runPoolA s es = .ok (s', ws) →
        ws.length = es.length ∧
        (∀ (j : Nat) (e : Event κ τ), es[j]? = some e → e.1 = some k →
          ws[j]? = some w) ∧
        s'.queue_list.getD w [] =
          s.queue_list.getD w [] ++
            ((es.zip ws).filterMap
              (fun p => if p.2 = w then some p.1.2 else none)) := by
  induction es with
  | nil =>
    intro s k w hinv hres s' ws h
    simp only [runPoolA] at h
    injection h with h
    injection h with h1 h2
    subst h1
    subst h2
    refine ⟨rfl, ?_, by simp⟩
    intro j e hj
    simp at hj
  | cons e es ih =>
    intro s k w hinv hres s' ws h
    rw [runPoolA_cons] at h
    cases hrec : runPoolA (applyStep s (routeWorker s e.1) e.1 e.2) es with
    | error err =>
      rw [hrec] at h
      exact absurd h (by simp)
    | ok pr =>
      obtain ⟨s1', ws'⟩ := pr
      rw [hrec] at h
      injection h with h
      injection h with h1 h2
      subst h1
      subst h2
      have hk0 : k ∈ s.watching_list.getD w [] := by
        have h0 := hres 0 (by omega)
        rw [List.take_zero, residentAfter_nil] at h0
        exact of_decide_eq_true h0
      have hres1 : ∀ n ≤ es.length,
          residentAfter (applyStep s (routeWorker s e.1) e.1 e.2)
            (es.take n) k w = true := by
        intro n hn
        have hx := hres (n + 1) (by simpa using Nat.succ_le_succ hn)
        rw [List.take_succ_cons, residentAfter_cons] at hx
        exact hx
      have hinv1 := applyStep_inv s e.1 e.2 hinv
      obtain ⟨hlen, hkey, hqueue⟩ := ih _ k w hinv1 hres1 s1' ws' hrec
      have hwlt : routeWorker s e.1 < s.queue_list.length := by
        rw [hinv.1.2.1]
        exact routeWorker_lt s e.1 hinv.1
      refine ⟨by simp [hlen], ?_, ?_⟩
      · intro j ev hj hkeyj
        cases j with
        | zero =>
          rw [List.getElem?_cons_zero] at hj
          injection hj with hj
          subst hj
          rw [List.getElem?_cons_zero]
          have hw : routeWorker s e.1 = w := by
            rw [hkeyj]
            exact routeWorker_resident hinv.2.1 hk0
          rw [hw]
        | succ n =>
          rw [List.getElem?_cons_succ] at hj
          rw [List.getElem?_cons_succ]
          exact hkey n ev hj hkeyj
      · rw [hqueue, applyStep_queue_getD, List.zip_cons_cons,
          List.filterMap_cons]
        by_cases hcase : routeWorker s e.1 = w
        · rw [if_pos ⟨hcase.symm, hwlt⟩, if_pos hcase]
          simp
        · rw [if_neg (fun hc => hcase hc.1.symm), if_neg hcase]

/-- The tasks of the `k`-keyed submissions form a subsequence (in order)
of the tasks of all submissions routed to worker `w`, once every `k`-keyed
submission is known to be routed to `w`. -/
theorem filterMap_key_sublist (es : List (Event κ τ)) :
    ∀ ws : List Nat, ws.length = es.length → ∀ (k : κ) (w : Nat),
      (∀ (j : Nat) (e : Event κ τ), es[j]? = some e → e.1 = some k →
        ws[j]? = some w) →
      (es.filterMap (fun e => if e.1 = some k then some e.2 else none)).Sublist
        ((es.zip ws).filterMap
          (fun p => if p.2 = w then some p.1.2 else none)) := by
  induction es with
  | nil =>
    intro ws hlen k w hkey
    simp
  | cons e es ih =>
    intro ws hlen k w hkey
    cases ws with
    | nil => simp at hlen
    | cons x ws' =>
      rw [List.zip_cons_cons, List.filterMap_cons, List.filterMap_cons]
      have hkeytail : ∀ (j : Nat) (e' : Event κ τ), es[j]? = some e' →
          e'.1 = some k → ws'[j]? = some w := by
        intro j e' hj hk'
        have hx := hkey (j + 1) e' (by simpa using hj) hk'
        simpa using hx
      have htail := ih ws' (by simpa using hlen) k w hkeytail
      by_cases hek : e.1 = some k
      · have hx : x = w := by
          have h0 := hkey 0 e (by simp) hek
          rw [List.getElem?_cons_zero] at h0
          injection h0
        rw [if_pos hek, if_pos hx]
        exact htail.cons₂ e.2
      · rw [if_neg hek]
        by_cases hx : x = w
        · rw [if_pos hx]
          exact htail.cons e.2
        · rw [if_neg hx]
          exact htail

/-- C6: starting from a pool satisfying the invariants, run any sequence
of keyed and unkeyed submissions during which key `k` remains resident in
worker `w`'s affinity set (it is never evicted).  Then every submission
keyed `k` is routed to worker `w`; worker `w`'s FIFO queue ends as its
previous content followed by the tasks routed to `w` in submission order;
and in particular the `k`-keyed tasks appear in it as a subsequence in
submission order. -/
theorem same_key_same_worker (s : PoolState κ τ) (es : List (Event κ τ))
    (k : κ) (w : Nat) (hinv : Inv s)
    (hres : ∀ n ≤ es.length, residentAfter s (es.take n) k w = true)
    (s' : PoolState κ τ) (ws : List Nat)
    (h : runPoolA s es = .ok (s', ws)) :
    (∀ (j : Nat) (e : Event κ τ), es[j]? = some e → e.1 = some k →
        ws[j]? = some w) ∧
      s'.queue_list.getD w [] =
        s.queue_list.getD w [] ++
          ((es.zip ws).filterMap
            (fun p => if p.2 = w then some p.1.2 else none)) ∧
      (es.filterMap
          (fun e => if e.1 = some k then some e.2 else none)).Sublist
        (s'.queue_list.getD w []) := by
  obtain ⟨hlen, hkey, hqueue⟩ := runA_key_affinity es s k w hinv hres s' ws h
  refine ⟨hkey, hqueue, ?_⟩
  rw [hqueue]
  exact (filterMap_key_sublist es ws hlen k w hkey).trans
    (List.sublist_append_right _ _)

/-- Witness for C6: key 9 lives in worker 1's deque; submitting
`(9, 100)`, `(none, 101)`, `(9, 102)` routes both 9-keyed tasks to worker
1, whose queue ends `[100, 102]` in submission order. -/
theorem same_key_same_worker_witness :
    (∀ (j : Nat) (e : Event Nat Nat),
        ([(some 9, 100), (none, 101), (some 9, 102)] :
          List (Event Nat Nat))[j]? = some e → e.1 = some 9 →
        ([1, 0, 1] : List Nat)[j]? = some 1) ∧
      ((⟨2, 2, 1, [[101], [100, 102]], [[], [9]]⟩ :
          PoolState Nat Nat).queue_list.getD 1 [] =
        (⟨2, 2, 0, [[], []], [[], [9]]⟩ :
          PoolState Nat Nat).queue_list.getD 1 [] ++
          ((([(some 9, 100), (none, 101), (some 9, 102)] :
              List (Event Nat Nat)).zip ([1, 0, 1] : List Nat)).filterMap
            (fun p => if p.2 = 1 then some p.1.2 else none))) ∧
      (([(some 9, 100), (none, 101), (some 9, 102)] :
          List (Event Nat Nat)).filterMap
          (fun e => if e.1 = some 9 then some e.2 else none)).Sublist
        ((⟨2, 2, 1, [[101], [100, 102]], [[], [9]]⟩ :
          PoolState Nat Nat).queue_list.getD 1 []) :=
  same_key_same_worker (⟨2, 2, 0, [[], []], [[], [9]]⟩ : PoolState Nat Nat)
    [(some 9, 100), (none, 101), (some 9, 102)] 9 1
    ⟨⟨by decide, by decide, by decide, by decide⟩,
      fun k => by
        by_cases h9 : k = 9
        · subst h9
          decide
        · rw [ownersCount, List.countP_eq_zero.mpr]
          · omega
          · intro a ha
            simp only [List.mem_cons, List.not_mem_nil, or_false] at ha
            rcases ha with rfl | rfl
            · simp
            · simp [h9],
      by
        intro w hw
        simp only [List.mem_cons, List.not_mem_nil, or_false] at hw
        rcases hw with rfl | rfl <;> decide⟩
    (by decide)
    ⟨2, 2, 1, [[101], [100, 102]], [[], [9]]⟩ [1, 0, 1] (by rfl)

end Spawn
